import Mathlib

/-!
Verification of the hydrasect graph/search core.

This file gives a shallow embedding, in Lean 4, of the algorithmic core of
the `hydrasect` tool (identifier parsing, commit-graph construction,
breadth-first proximity search, evaluation-history parsing, last-record
extraction, and history-file opening), translated from the Rust sources
`src/main.rs`, `src/history.rs` and `hydrasect-search.rs`, and proves or
refutes the specified properties of those functions.

Modelling conventions:
* A byte is a `Nat` (the Rust code works on `u8`; no arithmetic here can
  overflow a byte, so no masking is needed).
* `Vec<u8>` and `&[u8]` become `List Nat`.
* `BTreeSet<Oid>` becomes a `List Oid` kept sorted and duplicate-free by the
  operations that build it; the operations mirror the set semantics of the
  Rust code, and iteration over a set is iteration over the list.
* `BTreeMap` keyed by `Oid` becomes either an association list (for the
  parsed dag, with the map's last-insert-wins semantics made explicit) or a
  vertex list plus a lookup function (for the finished graph).
* Fallible Rust code returns `Except`; a Rust panic (an out-of-bounds index
  or a failed `unwrap`) is a distinguished error constructor, since it also
  aborts the computation.
* The BFS loop takes an explicit fuel argument; one unit of fuel is one
  iteration of the Rust `loop`.  Running out of fuel is a distinguished
  outcome, so termination statements say the result is not that outcome.
-/

deriving instance DecidableEq for Except

namespace Hydrasect

/-- A git object identifier: the byte vector inside `Oid(Vec<u8>)`. -/
abbrev Oid := List Nat

/-- Failure of a parsing pipeline.  `parseError b0 b1` models
`OidParseError([b0, b1])`; `emptyLine` models the `"empty line"` error of
`commit_graph`; `indexOut` models a Rust panic (out-of-bounds index or a
failed `unwrap`), which aborts the run rather than returning `Err`. -/
inductive PFail : Type
  | parseError (b0 b1 : Nat)
  | emptyLine
  | indexOut
deriving DecidableEq

/-- `u8::is_ascii_hexdigit`: `0-9`, `A-F`, `a-f`. -/
def isHexDigit (b : Nat) : Bool :=
  (48 ≤ b && b ≤ 57) || (65 ≤ b && b ≤ 70) || (97 ≤ b && b ≤ 102)

/-- Value of an ASCII hex digit (the digit value used by
`u8::from_str_radix(_, 16)`). -/
def hexVal (b : Nat) : Nat :=
  if 48 ≤ b && b ≤ 57 then b - 48
  else if 65 ≤ b && b ≤ 70 then b - 55
  else if 97 ≤ b && b ≤ 102 then b - 87
  else 0

/-- `str::from_utf8(pair).ok().and_then(|s| u8::from_str_radix(s, 16).ok())`
for a two-byte chunk `[b0, b1]`.  Two ASCII bytes form a two-character
string; `from_str_radix` accepts two hex digits, or a leading `+` sign
(ASCII 43) followed by one hex digit.  A byte ≥ 128 either makes the chunk
invalid UTF-8 or a single non-ASCII character, and a non-ASCII character is
never a hex digit or a sign, so those cases all fail. -/
def parsePair2 (b0 b1 : Nat) : Option Nat :=
  if b0 < 128 && b1 < 128 then
    if isHexDigit b0 && isHexDigit b1 then some (16 * hexVal b0 + hexVal b1)
    else if b0 = 43 && isHexDigit b1 then some (hexVal b1)
    else none
  else none

/-- `bytes.chunks(2)`: split into two-byte chunks, the last chunk having a
single byte when the length is odd. -/
def chunks2 : List Nat → List (List Nat)
  | [] => []
  | [a] => [[a]]
  | a :: b :: rest => [a, b] :: chunks2 rest

/-- The body of the closure mapped over `bytes.chunks(2)` in `Oid::parse`.
The closure ends in `.ok_or(OidParseError([pair[0], pair[1]]))`, and
`ok_or` takes its error argument by value, so `OidParseError([pair[0],
pair[1]])` is evaluated eagerly, before the option is inspected.  On a
two-byte chunk that construction is harmless and the conversion decides
between `Ok` and the `ParseError` carrying the chunk.  On a one-byte chunk
— the final chunk of any odd-length input that evaluation reaches — the
expression `pair[1]` is an out-of-bounds index, so the chunk panics
unconditionally, whatever its byte is. -/
def chunkResult : List Nat → Except PFail Nat
  | [a, b] =>
    match parsePair2 a b with
    | some v => .ok v
    | none => .error (.parseError a b)
  | _ => .error .indexOut

/-- `collect::<Result<Vec<_>, _>>()`: sequence a fallible map over a list,
stopping at the first error. -/
def mapExcept (f : α → Except PFail β) : List α → Except PFail (List β)
  | [] => .ok []
  | a :: rest =>
    match f a with
    | .error e => .error e
    | .ok b =>
      match mapExcept f rest with
      | .error e => .error e
      | .ok bs => .ok (b :: bs)

/-- `Oid::parse` from `src/main.rs` (identical in `hydrasect-search.rs`). -/
def Oid.parse (bytes : List Nat) : Except PFail Oid :=
  mapExcept chunkResult (chunks2 bytes)

/-- Reference decoding of an even-length all-hex byte string: two hex
digits per output byte.  Used to state what `Oid.parse` produces on
even-length hex input (on odd-length input the program panics before
producing anything, so the lone-byte branch here only keeps the function
total and is exercised by no theorem). -/
def decodeHex : List Nat → List Nat
  | [] => []
  | [_] => []
  | a :: b :: rest => (16 * hexVal a + hexVal b) :: decodeHex rest

/-- `parse_history_line` from `src/main.rs`: take the maximal leading run of
ASCII hex digits and parse it.  The Rust function ends in `.unwrap()`; the
`Except` layer is kept here.  (The unwrap itself never fires, but when the
leading run has odd length `Oid::parse` panics first, at the eagerly-built
`OidParseError` index for the lone final byte.) -/
def parse_history_line (line : List Nat) : Except PFail Oid :=
  Oid.parse (line.takeWhile fun b => isHexDigit b)

/-- Splitting a byte string at every occurrence of a delimiter, keeping
empty fields: the semantics of `slice::split` used on each line (delimiter
`' '`).  Always returns at least one (possibly empty) field. -/
def splitByte (d : Nat) : List Nat → List (List Nat)
  | [] => [[]]
  | b :: rest =>
    if b = d then [] :: splitByte d rest
    else
      match splitByte d rest with
      | [] => [[b]]
      | s :: ss => (b :: s) :: ss

/-- `BufRead::split(b'\n')`: the final segment is dropped when the input
ends with the delimiter (and an empty input yields no segments at all). -/
def segments (input : List Nat) : List (List Nat) :=
  let s := splitByte 10 input
  if s.getLast? = some [] then s.dropLast else s

/-- `parse_line` from `commit_graph` in `src/main.rs`.  A line is split at
every space; the first field is the commit id, the rest the declared
parents.  The parents are parsed before the first field, matching the
evaluation order of the Rust code (`fields.map(parse_oid).collect()?`
before `parse_oid(oid)?`).  Since `slice::split` always yields at least one
field, the `[]` branch (the `"empty line"` error) is unreachable. -/
def parse_line (line : List Nat) : Except PFail (Oid × List Oid) :=
  match splitByte 32 line with
  | [] => .error .emptyLine
  | oid :: rest =>
    match mapExcept Oid.parse rest with
    | .error e => .error e
    | .ok parents =>
      match Oid.parse oid with
      | .error e => .error e
      | .ok o => .ok (o, parents)

/-- The parsed dag of `commit_graph`: every line of the input parsed in
order, the first failure aborting.  (In the Rust code the first line is
additionally `peek`ed at for the `bad` marker; since `peek` returns the
first line's error and `collect` the first error overall, the combined
error behaviour is exactly "first error in line order".) -/
def dagOf (input : List Nat) : Except PFail (List (Oid × List Oid)) :=
  mapExcept parse_line (segments input)

/-- Lookup in the association list with the last-insert-wins semantics of
`collect::<BTreeMap<_, _>>()`: a repeated key keeps the value of its last
line. -/
def lookupLast (dag : List (Oid × List Oid)) (o : Oid) : Option (List Oid) :=
  match dag with
  | [] => none
  | kv :: rest =>
    match lookupLast rest o with
    | some r => some r
    | none => if kv.1 = o then some kv.2 else none

/-- The parents declared by the (effective, last-wins) line of `o`, or `[]`
when `o` has no line. -/
def declaredParents (dag : List (Oid × List Oid)) (o : Oid) : List Oid :=
  (lookupLast dag o).getD []

/-- `considered_oids`: the set of all first fields (the keys of the dag
map). -/
def vertsOfDag (dag : List (Oid × List Oid)) : List Oid :=
  (dag.map Prod.fst).dedup

/-- A graph vertex: `struct Commit { parents, children }`. -/
structure Commit where
  parents : List Oid
  children : List Oid
deriving DecidableEq

/-- `struct CommitGraph { bad, commits }`.  The `BTreeMap<Oid, Commit>` is
represented by the list of its keys plus a lookup function; `commit o` is
meaningful only for `o ∈ verts` (elsewhere the Rust map lookup returns
`None` and the traversal code `unwrap`s, which the search model treats as a
panic). -/
structure CommitGraph where
  bad : Option Oid
  verts : List Oid
  commit : Oid → Commit

/-- Assembling the graph from the parsed dag, as in `commit_graph`:
`bad` is the first line's id; each vertex keeps the declared parents that
are themselves vertices (`parents.intersection(&considered_oids)`), and its
children are the vertices that declare it as a parent (the `paternities`
reverse map, entries for non-vertex parents being discarded). -/
def graphOfDag (dag : List (Oid × List Oid)) : CommitGraph where
  bad := dag.head?.map Prod.fst
  verts := vertsOfDag dag
  commit o :=
    { parents := (declaredParents dag o).filter fun p => decide (p ∈ vertsOfDag dag)
      children := (vertsOfDag dag).filter fun c => decide (o ∈ declaredParents dag c) }

/-- `commit_graph` from `src/main.rs`: parse, then assemble. -/
def commit_graph (input : List Nat) : Except PFail CommitGraph :=
  match dagOf input with
  | .error e => .error e
  | .ok dag => .ok (graphOfDag dag)

/-! ### Ordered-set operations (`BTreeSet<Oid>`)

The sets built by the search are represented as lists; the operations
mirror the contents of the corresponding `BTreeSet` operations, insertion
keeping the list sorted in the byte-lexicographic `Ord` of `Oid` so that
iteration order matches the Rust iteration order. -/

/-- Byte-lexicographic strict order on identifiers (`Ord for Vec<u8>`). -/
def oidLtB : List Nat → List Nat → Bool
  | [], [] => false
  | [], _ :: _ => true
  | _ :: _, [] => false
  | a :: as, b :: bs => if a < b then true else if b < a then false else oidLtB as bs

/-- Insertion into a sorted duplicate-free list (`BTreeSet::insert`). -/
def sinsert (x : Oid) : List Oid → List Oid
  | [] => [x]
  | y :: ys =>
    if x = y then y :: ys
    else if oidLtB x y then x :: y :: ys
    else y :: sinsert x ys

/-- `s.intersection(&t)`, iterated in the order of `s`. -/
def interS (s t : List Oid) : List Oid :=
  s.filter fun a => decide (a ∈ t)

/-- `s.difference(&t)`, iterated in the order of `s`. -/
def diffS (s t : List Oid) : List Oid :=
  s.filter fun a => decide (a ∉ t)

/-- `s.remove(&b)` (the resulting set). -/
def eraseS (s : List Oid) (b : Oid) : List Oid :=
  s.filter fun a => decide (a ≠ b)

/-- `s ∪ t` (`append` of one set into another, or `collect`ing a union). -/
def unionS (s t : List Oid) : List Oid :=
  t.foldl (fun acc x => sinsert x acc) s

/-! ### Proximity search (`closest_commits` in `src/main.rs`) -/

/-- Outcome of the search loop.  `ok`/`err` are the `Result` values of the
Rust function; `missingVertex` is the panic of
`graph.commits.get(candidate).unwrap()` on a candidate that is not a
vertex; `outOfFuel` means the allotted number of loop iterations was
exhausted (a modelling artefact: the Rust loop has no fuel). -/
inductive SearchResult : Type
  | ok (s : List Oid)
  | err (e : String)
  | missingVertex
  | outOfFuel
deriving DecidableEq

/-- One pass of
`candidates.intersection(&targets).map(|oid| filter(oid).map(..)).filter(..).collect::<Result<BTreeSet<_>,_>>()`:
evaluate the predicate on each member in iteration order, drop the
`Ok(false)` members, keep the `Ok(true)` members, and stop at the first
error. -/
def collectMatches (filter : Oid → Except String Bool) : List Oid → Except String (List Oid)
  | [] => .ok []
  | o :: rest =>
    match filter o with
    | .error e => .error e
    | .ok true =>
      match collectMatches filter rest with
      | .error e => .error e
      | .ok ms => .ok (o :: ms)
    | .ok false => collectMatches filter rest

/-- `commit.children.union(&commit.parents)` for one candidate. -/
def neighborsOf (g : CommitGraph) (c : Oid) : List Oid :=
  unionS (g.commit c).children (g.commit c).parents

/-- The `flat_map` over all candidates, collected into a set. -/
def collectNeighbors (g : CommitGraph) (candidates : List Oid) : List Oid :=
  candidates.foldl (fun acc c => unionS acc (neighborsOf g c)) []

/-- The `loop` of `closest_commits`.  Each fuel unit is one iteration:
return the (empty) candidate set when the frontier is empty; otherwise
compute the eligible intersection with the targets (propagating a predicate
error); return it if non-empty; otherwise expand the frontier to the
neighbors of all candidates minus the already-checked set, move the old
frontier into `checked`, and continue.  The neighbor lookup `unwrap`s, so a
candidate that is not a vertex is a panic. -/
def closestLoop (g : CommitGraph) (targets : List Oid)
    (filter : Oid → Except String Bool) : Nat → List Oid → List Oid → SearchResult
  | 0, _, _ => .outOfFuel
  | fuel + 1, candidates, checked =>
    if candidates.isEmpty then .ok candidates
    else
      match collectMatches filter (interS candidates targets) with
      | .error e => .err e
      | .ok ms =>
        if ms.isEmpty then
          if candidates.all fun c => decide (c ∈ g.verts) then
            closestLoop g targets filter fuel
              (diffS (collectNeighbors g candidates) checked)
              (unionS checked candidates)
          else .missingVertex
        else .ok ms

/-- `closest_commits` from `src/main.rs`: remove the bad marker from the
targets, then run the loop from the frontier `{start}` with an empty
checked set. -/
def closest_commits (fuel : Nat) (start : Oid) (graph : CommitGraph)
    (targets : List Oid) (filter : Oid → Except String Bool) : SearchResult :=
  let targets2 :=
    match graph.bad with
    | some bad => eraseS targets bad
    | none => targets
  closestLoop graph targets2 filter fuel [start] []

/-- Closure of a graph: every parent or child of a vertex is itself a
vertex.  `commit_graph` guarantees this by construction; the search relies
on it for its lookups to succeed. -/
def GraphClosed (g : CommitGraph) : Prop :=
  ∀ v ∈ g.verts,
    (∀ p ∈ (g.commit v).parents, p ∈ g.verts) ∧
    (∀ c ∈ (g.commit v).children, c ∈ g.verts)

instance (g : CommitGraph) : Decidable (GraphClosed g) := by
  unfold GraphClosed
  infer_instance

/-! ### Last-record extraction (`last_line` in `hydrasect-search.rs`) -/

/-- Index of the last occurrence of `d` in `l` (`iter().rposition`). -/
def rposition (d : Nat) : List Nat → Option Nat
  | [] => none
  | b :: rest =>
    match rposition d rest with
    | some i => some (i + 1)
    | none => if b = d then some 0 else none

/-- The seek loop of `last_line`, over a pure file `contents`, returning
the final stream position (the start of the record that `read_to_end` then
reads).  `fromEnd` starts at `buf.len() + 1 = 4097` so that the first
window excludes the final byte of a large file.  A seek before the start of
the file (`fromEnd > len`) is the `EINVAL` case: the buffer is shrunk to
`min len 4096`, the file is rewound, and the window is read from position
0 — after which the loop always exits (either a newline is found, or the
position before the read was 0).  Otherwise a full 4096-byte window is read
at `len - fromEnd`.  `none` means the fuel ran out (never happens for the
fuel chosen by `last_line`). -/
def lastLineLoop (contents : List Nat) : Nat → Nat → Option Nat
  | 0, _ => none
  | fuel + 1, fromEnd =>
    let len := contents.length
    if fromEnd > len then
      let bufLen := min len 4096
      match rposition 10 (contents.take bufLen) with
      | some i => some (i + 1)
      | none => some 0
    else
      let pos := len - fromEnd
      match rposition 10 ((contents.drop pos).take 4096) with
      | some i => some (pos + i + 1)
      | none =>
        if pos = 0 then some 0
        else lastLineLoop contents fuel (fromEnd + 4096)

/-- `last_line` from `hydrasect-search.rs`: find the final stream position
with the seek loop, read from there to the end of the file, and drop one
trailing newline if present. -/
def last_line (contents : List Nat) : Option (List Nat) :=
  match lastLineLoop contents (contents.length / 4096 + 2) 4097 with
  | none => none
  | some p =>
    let record := contents.drop p
    some (if record.getLast? = some 10 then record.dropLast else record)

/-- Modelled from the spec (§4.5 step 1 and the claim's own words), as the
reference for the refinement claim: the last record of a file is the bytes
after the final line terminator, once a single trailing terminator has been
discounted; a file with no (remaining) terminator is itself the single
record. -/
def naive_last_record (contents : List Nat) : List Nat :=
  let c := if contents.getLast? = some 10 then contents.dropLast else contents
  match rposition 10 c with
  | none => c
  | some i => c.drop (i + 1)

/-! ### Opening the history cache (`open_history_file` in `src/history.rs`)

Error messages are byte strings (`List Nat`), like all other text in this
embedding.  The filesystem is a parameter: what `File::open` does at the
resolved path. -/

/-- Outcome of `File::open(&path)`. -/
inductive OpenOutcome : Type
  | opened
  | notFound
  | otherError (e : List Nat)
deriving DecidableEq

/-- Result of `open_history_file`: the message logged through `error!` (if
any) and the returned `Result` (`ok` standing for the opened file). -/
structure OpenHistoryResult where
  log : Option (List Nat)
  result : Except (List Nat) Unit
deriving DecidableEq

/-- `"history file not available"`. -/
def msgNotAvailable : List Nat :=
  [104, 105, 115, 116, 111, 114, 121, 32, 102, 105, 108, 101, 32, 110, 111,
   116, 32, 97, 118, 97, 105, 108, 97, 98, 108, 101]

/-- `"opening history file: "` (the prefix wrapped around other I/O
errors). -/
def msgOpening : List Nat :=
  [111, 112, 101, 110, 105, 110, 103, 32, 104, 105, 115, 116, 111, 114, 121,
   32, 102, 105, 108, 101, 58, 32]

/-- `"Failed to open history file. Please run hydrascrape."` (logged via
`error!` in the missing-file case). -/
def msgRunHydrascrape : List Nat :=
  [70, 97, 105, 108, 101, 100, 32, 116, 111, 32, 111, 112, 101, 110, 32,
   104, 105, 115, 116, 111, 114, 121, 32, 102, 105, 108, 101, 46, 32, 80,
   108, 101, 97, 115, 101, 32, 114, 117, 110, 32, 104, 121, 100, 114, 97,
   115, 99, 114, 97, 112, 101, 46]

/-- `open_history_file` from `src/history.rs`: resolve the path (a failure
there propagates); a missing file logs a pointer to `hydrascrape` and
fails with the fixed `"history file not available"` error — it does not
populate the cache; any other open failure is wrapped as
`"opening history file: {e}"`. -/
def open_history_file (pathResult : Except (List Nat) (List Nat))
    (fs : List Nat → OpenOutcome) : OpenHistoryResult :=
  match pathResult with
  | .error e => ⟨none, .error e⟩
  | .ok path =>
    match fs path with
    | .opened => ⟨none, .ok ()⟩
    | .notFound => ⟨some msgRunHydrascrape, .error msgNotAvailable⟩
    | .otherError e => ⟨none, .error (msgOpening ++ e)⟩

/-! ### History-set construction (`read_history` in `src/main.rs`) -/

/-- `read_history`: split the input at newlines, parse each line with
`parse_history_line`, and collect the identifiers into a set.  The only
`Err` the Rust function can return is an I/O error from reading a line;
but a line whose leading hex run has odd length makes `parse_history_line`
panic, which the `Except` layer records as `indexOut`. -/
def read_history (input : List Nat) : Except PFail (List Oid) :=
  match mapExcept parse_history_line (segments input) with
  | .error e => .error e
  | .ok os => .ok (os.foldl (fun acc o => sinsert o acc) [])

/-! ### Membership lemmas for the set operations -/

theorem mem_sinsert {a x : Oid} {s : List Oid} : a ∈ sinsert x s ↔ a = x ∨ a ∈ s := by
  induction s with
  | nil => simp [sinsert]
  | cons y ys ih =>
    simp only [sinsert]
    split
    · next h =>
      subst h
      constructor
      · exact fun hm => Or.inr hm
      · rintro (rfl | hm)
        · exact List.mem_cons_self _ _
        · exact hm
    · split
      · simp [List.mem_cons]
      · simp only [List.mem_cons, ih]; tauto

theorem mem_unionS {a : Oid} : ∀ {t s : List Oid}, a ∈ unionS s t ↔ a ∈ s ∨ a ∈ t := by
  intro t
  induction t with
  | nil => simp [unionS]
  | cons y ys ih =>
    intro s
    show a ∈ unionS (sinsert y s) ys ↔ _
    rw [ih, mem_sinsert]
    simp [List.mem_cons]
    tauto

theorem mem_interS {a : Oid} {s t : List Oid} : a ∈ interS s t ↔ a ∈ s ∧ a ∈ t := by
  simp [interS, List.mem_filter]

theorem mem_diffS {a : Oid} {s t : List Oid} : a ∈ diffS s t ↔ a ∈ s ∧ a ∉ t := by
  simp [diffS, List.mem_filter]

theorem mem_eraseS {a b : Oid} {s : List Oid} : a ∈ eraseS s b ↔ a ∈ s ∧ a ≠ b := by
  simp [eraseS, List.mem_filter]

theorem mem_collectNeighbors {g : CommitGraph} {x : Oid} {cands : List Oid} :
    x ∈ collectNeighbors g cands ↔ ∃ c ∈ cands, x ∈ neighborsOf g c := by
  have key : ∀ (l acc : List Oid),
      x ∈ l.foldl (fun acc c => unionS acc (neighborsOf g c)) acc ↔
        x ∈ acc ∨ ∃ c ∈ l, x ∈ neighborsOf g c := by
    intro l
    induction l with
    | nil => simp
    | cons c cs ih =>
      intro acc
      rw [List.foldl_cons, ih, mem_unionS]
      simp only [List.mem_cons]
      constructor
      · rintro ((h | h) | ⟨d, hd, hx⟩)
        · exact Or.inl h
        · exact Or.inr ⟨c, Or.inl rfl, h⟩
        · exact Or.inr ⟨d, Or.inr hd, hx⟩
      · rintro (h | ⟨d, (rfl | hd), hx⟩)
        · exact Or.inl (Or.inl h)
        · exact Or.inl (Or.inr hx)
        · exact Or.inr ⟨d, hd, hx⟩
  simpa using key cands []

/-! ### Facts about the match-collection pass -/

theorem collectMatches_sub {filter : Oid → Except String Bool} :
    ∀ {l ms : List Oid}, collectMatches filter l = .ok ms → ∀ x ∈ ms, x ∈ l := by
  intro l
  induction l with
  | nil => intro ms h; cases h; simp
  | cons o rest ih =>
    intro ms h
    simp only [collectMatches] at h
    cases hf : filter o with
    | error e => rw [hf] at h; cases h
    | ok b =>
      rw [hf] at h
      cases b with
      | false =>
        intro x hx
        exact List.mem_cons_of_mem _ (ih h x hx)
      | true =>
        cases hr : collectMatches filter rest with
        | error e => rw [hr] at h; cases h
        | ok ms2 =>
          rw [hr] at h
          cases h
          intro x hx
          rcases List.mem_cons.mp hx with h1 | h2
          · exact h1 ▸ List.mem_cons_self o rest
          · exact List.mem_cons_of_mem _ (ih hr x h2)

theorem collectMatches_allFalse {filter : Oid → Except String Bool} :
    ∀ {l : List Oid}, (∀ x ∈ l, filter x = .ok false) → collectMatches filter l = .ok [] := by
  intro l
  induction l with
  | nil => intro; rfl
  | cons o rest ih =>
    intro h
    simp only [collectMatches]
    rw [h o (List.mem_cons_self o rest)]
    exact ih fun x hx => h x (List.mem_cons_of_mem _ hx)

theorem collectMatches_err {filter : Oid → Except String Bool} {m : Oid} {e : String} :
    ∀ {l : List Oid}, m ∈ l → filter m = .error e →
      (∀ x ∈ l, x ≠ m → (filter x).isOk = true) →
      collectMatches filter l = .error e := by
  intro l
  induction l with
  | nil => intro h; cases h
  | cons o rest ih =>
    intro hm hf hunique
    simp only [collectMatches]
    by_cases ho : o = m
    · subst ho; rw [hf]
    · have hok := hunique o (List.mem_cons_self o rest) ho
      have hrest : m ∈ rest := by
        rcases List.mem_cons.mp hm with h1 | h2
        · exact absurd h1.symm ho
        · exact h2
      have htail := ih hrest hf fun x hx hne => hunique x (List.mem_cons_of_mem _ hx) hne
      cases hfo : filter o with
      | error e2 => rw [hfo] at hok; cases hok
      | ok b =>
        cases b with
        | false => exact htail
        | true => rw [htail]

/-! ### The loop only returns subsets of the targets -/

theorem loop_ok_sub {g : CommitGraph} {targets : List Oid}
    {filter : Oid → Except String Bool} :
    ∀ fuel cands checked s, closestLoop g targets filter fuel cands checked = .ok s →
      ∀ x ∈ s, x ∈ targets := by
  intro fuel
  induction fuel with
  | zero => intro cands checked s h; exact absurd h (by simp [closestLoop])
  | succ n ih =>
    intro cands checked s h
    simp only [closestLoop] at h
    by_cases hempty : cands.isEmpty
    · rw [if_pos hempty] at h
      cases h
      rw [List.isEmpty_iff] at hempty
      subst hempty
      intro x hx
      cases hx
    · rw [if_neg hempty] at h
      cases hm : collectMatches filter (interS cands targets) with
      | error e => rw [hm] at h; cases h
      | ok ms =>
        simp only [hm] at h
        by_cases hms : ms.isEmpty
        · rw [if_pos hms] at h
          by_cases hall : cands.all fun c => decide (c ∈ g.verts)
          · rw [if_pos hall] at h
            exact ih _ _ _ h
          · rw [if_neg hall] at h; cases h
        · rw [if_neg hms] at h
          cases h
          intro x hx
          exact (mem_interS.mp (collectMatches_sub hm x hx)).2

/-! ### Claim C1 -/

/-- Claim C1: whenever `graph.bad = B`, `closest_commits` never returns a
result set containing `B`, whatever the start vertex, fuel, predicate and
target set (in particular when `B` is a target, the start vertex, or the
only target): `B` is removed from the targets before the search, and every
successful non-empty result is a subset of the remaining targets. -/
theorem claim1_bad_exclusion (fuel : Nat) (start B : Oid) (g : CommitGraph)
    (targets : List Oid) (filter : Oid → Except String Bool) (s : List Oid)
    (hbad : g.bad = some B) (_hmem : B ∈ targets)
    (hres : closest_commits fuel start g targets filter = .ok s) :
    B ∉ s := by
  have hres2 : closestLoop g (eraseS targets B) filter fuel [start] [] = .ok s := by
    simpa only [closest_commits, hbad] using hres
  intro hBs
  have hBt := loop_ok_sub fuel [start] [] s hres2 B hBs
  exact (mem_eraseS.mp hBt).2 rfl

/-- A single-vertex graph whose only vertex is also the bad marker. -/
def gBadSingle : CommitGraph := ⟨some [170], [[170]], fun _ => ⟨[], []⟩⟩

/-- Witness for C1: on the graph whose single vertex `aa` is the bad marker,
with `aa` the start vertex and the only target and an always-eligible
predicate, the search returns the empty set; C1 applied there places the
bad marker outside the result. -/
theorem claim1_witness :
    gBadSingle.bad = some [170] ∧ [170] ∈ [[170]] ∧
      closest_commits 2 [170] gBadSingle [[170]] (fun _ => .ok true) = .ok [] ∧
      [170] ∉ ([] : List Oid) :=
  ⟨rfl, by decide, by decide,
    claim1_bad_exclusion 2 [170] [170] gBadSingle [[170]] (fun _ => .ok true) []
      rfl (by decide) (by decide)⟩

/-! ### Claim C5 -/

/-- Claim C5: if the eligibility predicate returns an error for a member of
the intersection of the current frontier with the targets (stated here for
the member whose check errors — any other member checks cleanly), the loop
returns that error at once: the whole search aborts with `err e`, never
skipping the member and never returning a (partial) `ok` set.  This applies
to every round of `closest_commits`, the first round included. -/
theorem claim5_fail_fast (g : CommitGraph) (targets : List Oid)
    (filter : Oid → Except String Bool) (fuel : Nat) (cands checked : List Oid)
    (m : Oid) (e : String)
    (hm : m ∈ interS cands targets) (hf : filter m = .error e)
    (hrest : ∀ x ∈ interS cands targets, x ≠ m → (filter x).isOk = true) :
    closestLoop g targets filter (fuel + 1) cands checked = .err e := by
  have hne : ¬cands.isEmpty = true := by
    rw [List.isEmpty_iff]
    intro hnil
    rw [mem_interS, hnil] at hm
    cases hm.1
  simp only [closestLoop, if_neg hne, collectMatches_err hm hf hrest]

/-- Witness for C5: on the single-vertex graph with that vertex as the only
target and a predicate failing on it, the first round aborts with the
predicate's error. -/
theorem claim5_witness :
    closestLoop gBadSingle [[170]] (fun _ => .error "skip check failed") 1
      [[170]] [] = .err "skip check failed" :=
  claim5_fail_fast gBadSingle [[170]] (fun _ => .error "skip check failed") 0
    [[170]] [] [170] "skip check failed" (by decide) rfl (by decide)

/-! ### Termination of the search loop

The measure is `2 * |unvisited vertices| + overlap flag`: a loop round that
neither returns nor grows `checked` can only happen when the whole frontier
is already checked (possible when a vertex is its own parent), and then the
next frontier is disjoint from `checked`, so the flag drops; every other
non-returning round moves at least one unvisited vertex into `checked`. -/

/-- The termination measure of one loop state. -/
def loopMu (g : CommitGraph) (cands checked : List Oid) : Nat :=
  2 * (g.verts.toFinset \ checked.toFinset).card +
    (if ∀ x ∈ cands, x ∉ checked then 0 else 1)

theorem toFinset_unionS (s t : List Oid) :
    (unionS s t).toFinset = s.toFinset ∪ t.toFinset := by
  apply Finset.ext
  intro a
  simp [List.mem_toFinset, mem_unionS, Finset.mem_union]

/-- After one expansion, the measure strictly decreases. -/
theorem loopMu_step (g : CommitGraph) (cands checked : List Oid)
    (hne : ¬cands.isEmpty = true) (hsub : ∀ c ∈ cands, c ∈ g.verts) :
    loopMu g (diffS (collectNeighbors g cands) checked) (unionS checked cands) <
      loopMu g cands checked := by
  have hchk : (unionS checked cands).toFinset = checked.toFinset ∪ cands.toFinset :=
    toFinset_unionS checked cands
  by_cases hcase : ∀ x ∈ cands, x ∈ checked
  · -- the frontier is entirely checked: `checked` does not change, the flag drops
    have hflag : ¬∀ x ∈ cands, x ∉ checked := by
      rw [List.isEmpty_iff] at hne
      rcases List.exists_mem_of_ne_nil cands hne with ⟨x, hx⟩
      exact fun hall => hall x hx (hcase x hx)
    have hsame : (unionS checked cands).toFinset = checked.toFinset := by
      rw [hchk]
      apply Finset.union_eq_left.mpr
      intro a ha
      rw [List.mem_toFinset] at ha ⊢
      exact hcase a ha
    have hdisj : ∀ x ∈ diffS (collectNeighbors g cands) checked, x ∉ unionS checked cands := by
      intro x hx
      rw [mem_diffS] at hx
      rw [mem_unionS]
      rintro (hc | hc)
      · exact hx.2 hc
      · exact hx.2 (hcase x hc)
    rw [loopMu, loopMu, hsame, if_pos hdisj, if_neg hflag]
    omega
  · -- some frontier member is unvisited: it moves into `checked`
    push_neg at hcase
    rcases hcase with ⟨x, hxc, hxnc⟩
    have hstrict : (g.verts.toFinset \ (unionS checked cands).toFinset).card <
        (g.verts.toFinset \ checked.toFinset).card := by
      apply Finset.card_lt_card
      constructor
      · intro a ha
        rw [Finset.mem_sdiff] at ha ⊢
        refine ⟨ha.1, fun hc => ha.2 ?_⟩
        rw [hchk] at ha
        exact absurd (Finset.mem_union_left _ hc) ha.2
      · intro hsubset
        have hxmem : x ∈ g.verts.toFinset \ checked.toFinset := by
          rw [Finset.mem_sdiff, List.mem_toFinset, List.mem_toFinset]
          exact ⟨hsub x hxc, hxnc⟩
        have := hsubset hxmem
        rw [Finset.mem_sdiff, hchk] at this
        exact this.2 (Finset.mem_union_right _ (List.mem_toFinset.mpr hxc))
    rw [loopMu, loopMu]
    have hub : (if ∀ y ∈ diffS (collectNeighbors g cands) checked, y ∉ unionS checked cands
        then 0 else 1) ≤ 1 := by split <;> omega
    omega

/-- Fuel one more than the measure never runs out, and under a closed graph
with the frontier inside the vertex set the neighbor lookups never panic. -/
theorem loop_term (g : CommitGraph) (targets : List Oid)
    (filter : Oid → Except String Bool) (hclosed : GraphClosed g) :
    ∀ k cands checked, (∀ c ∈ cands, c ∈ g.verts) → loopMu g cands checked ≤ k →
      closestLoop g targets filter (k + 1) cands checked ≠ .outOfFuel ∧
        closestLoop g targets filter (k + 1) cands checked ≠ .missingVertex := by
  intro k
  induction k using Nat.strong_induction_on with
  | _ k ih =>
    intro cands checked hsub hmu
    by_cases hempty : cands.isEmpty
    · have hred : closestLoop g targets filter (k + 1) cands checked = .ok cands := by
        simp only [closestLoop, if_pos hempty]
      rw [hred]
      exact And.intro (fun h => by cases h) (fun h => by cases h)
    · cases hm : collectMatches filter (interS cands targets) with
      | error e =>
        have hred : closestLoop g targets filter (k + 1) cands checked = .err e := by
          simp only [closestLoop, if_neg hempty, hm]
        rw [hred]
        exact And.intro (fun h => by cases h) (fun h => by cases h)
      | ok ms =>
        by_cases hms : ms.isEmpty
        · have hall : (cands.all fun c => decide (c ∈ g.verts)) = true := by
            rw [List.all_eq_true]
            intro c hc
            exact decide_eq_true (hsub c hc)
          have hmu2 := loopMu_step g cands checked hempty hsub
          have hk : 1 ≤ k := by omega
          have hsub2 : ∀ c ∈ diffS (collectNeighbors g cands) checked, c ∈ g.verts := by
            intro c hc
            rw [mem_diffS, mem_collectNeighbors] at hc
            rcases hc.1 with ⟨d, hd, hcn⟩
            rw [neighborsOf, mem_unionS] at hcn
            rcases hcn with hcn | hcn
            · exact ((hclosed d (hsub d hd)).2) c hcn
            · exact ((hclosed d (hsub d hd)).1) c hcn
          have step := ih (k - 1) (by omega) (diffS (collectNeighbors g cands) checked)
            (unionS checked cands) hsub2 (by omega)
          have hrw : k - 1 + 1 = k := by omega
          rw [hrw] at step
          have hred : closestLoop g targets filter (k + 1) cands checked =
              closestLoop g targets filter k (diffS (collectNeighbors g cands) checked)
                (unionS checked cands) := by
            simp only [closestLoop, if_neg hempty, hm, if_pos hms, hall, if_pos]
          rw [hred]
          exact step
        · have hred : closestLoop g targets filter (k + 1) cands checked = .ok ms := by
            simp only [closestLoop, if_neg hempty, hm, if_neg hms]
          rw [hred]
          exact And.intro (fun h => by cases h) (fun h => by cases h)

/-- With a predicate that declares every target ineligible, the loop never
finds a match and, once the measure is exhausted, returns the empty set. -/
theorem loop_allFalse (g : CommitGraph) (targets : List Oid)
    (filter : Oid → Except String Bool) (hclosed : GraphClosed g)
    (hfalse : ∀ o ∈ targets, filter o = .ok false) :
    ∀ k cands checked, (∀ c ∈ cands, c ∈ g.verts) → loopMu g cands checked ≤ k →
      closestLoop g targets filter (k + 1) cands checked = .ok [] := by
  intro k
  induction k using Nat.strong_induction_on with
  | _ k ih =>
    intro cands checked hsub hmu
    have hm : collectMatches filter (interS cands targets) = .ok [] :=
      collectMatches_allFalse fun x hx => hfalse x (mem_interS.mp hx).2
    by_cases hempty : cands.isEmpty
    · have hnil : cands = [] := List.isEmpty_iff.mp hempty
      subst hnil
      simp only [closestLoop, if_pos hempty]
    · have hall : (cands.all fun c => decide (c ∈ g.verts)) = true := by
        rw [List.all_eq_true]
        intro c hc
        exact decide_eq_true (hsub c hc)
      have hmu2 := loopMu_step g cands checked hempty hsub
      have hk : 1 ≤ k := by omega
      have hsub2 : ∀ c ∈ diffS (collectNeighbors g cands) checked, c ∈ g.verts := by
        intro c hc
        rw [mem_diffS, mem_collectNeighbors] at hc
        rcases hc.1 with ⟨d, hd, hcn⟩
        rw [neighborsOf, mem_unionS] at hcn
        rcases hcn with hcn | hcn
        · exact ((hclosed d (hsub d hd)).2) c hcn
        · exact ((hclosed d (hsub d hd)).1) c hcn
      have step := ih (k - 1) (by omega) (diffS (collectNeighbors g cands) checked)
        (unionS checked cands) hsub2 (by omega)
      have hrw : k - 1 + 1 = k := by omega
      rw [hrw] at step
      have hred : closestLoop g targets filter (k + 1) cands checked =
          closestLoop g targets filter k (diffS (collectNeighbors g cands) checked)
            (unionS checked cands) := by
        simp only [closestLoop, if_neg hempty, hm, if_pos List.isEmpty_nil, hall, if_pos]
      rw [hred]
      exact step

/-! ### Claim C4 -/

/-- Claim C4: (i) when every member of the current frontier-target
intersection is reported ineligible (`Ok(false)`) by the predicate, the
round neither returns nor errs — the loop continues outward to the next
ring (the neighbors of the frontier minus the checked set); (ii) when the
predicate reports every target ineligible, the search (with enough fuel on
a closed graph) returns the empty set successfully, not an error. -/
theorem claim4_skip_filtering :
    (∀ (g : CommitGraph) (targets : List Oid) (filter : Oid → Except String Bool)
        (fuel : Nat) (cands checked : List Oid),
      ¬cands.isEmpty = true →
      (∀ m ∈ interS cands targets, filter m = .ok false) →
      (∀ c ∈ cands, c ∈ g.verts) →
      closestLoop g targets filter (fuel + 1) cands checked =
        closestLoop g targets filter fuel
          (diffS (collectNeighbors g cands) checked) (unionS checked cands)) ∧
    (∀ (g : CommitGraph) (start : Oid) (targets : List Oid)
        (filter : Oid → Except String Bool) (fuel : Nat),
      GraphClosed g → start ∈ g.verts →
      (∀ o ∈ targets, filter o = .ok false) →
      2 * g.verts.toFinset.card + 1 ≤ fuel →
      closest_commits fuel start g targets filter = .ok []) := by
  constructor
  · intro g targets filter fuel cands checked hne hfalse hsub
    have hm : collectMatches filter (interS cands targets) = .ok [] :=
      collectMatches_allFalse hfalse
    have hall : (cands.all fun c => decide (c ∈ g.verts)) = true := by
      rw [List.all_eq_true]
      intro c hc
      exact decide_eq_true (hsub c hc)
    simp only [closestLoop, if_neg hne, hm, if_pos List.isEmpty_nil, hall, if_pos]
  · intro g start targets filter fuel hclosed hstart hfalse hfuel
    have hfalse2 : ∀ o ∈ (match g.bad with
        | some bad => eraseS targets bad
        | none => targets), filter o = .ok false := by
      cases g.bad with
      | none => exact hfalse
      | some bad => exact fun o ho => hfalse o (mem_eraseS.mp ho).1
    have hmu : loopMu g [start] [] ≤ fuel - 1 := by
      have hcard : (g.verts.toFinset \ ([] : List Oid).toFinset).card =
          g.verts.toFinset.card := by
        simp
      have hflag : (if ∀ x ∈ [start], x ∉ ([] : List Oid) then 0 else 1) = 0 := by
        simp
      rw [loopMu, hcard, hflag]
      omega
    have := loop_allFalse g _ filter hclosed hfalse2 (fuel - 1) [start] []
      (by intro c hc; rw [List.mem_singleton] at hc; exact hc ▸ hstart) hmu
    have hrw : fuel - 1 + 1 = fuel := by omega
    rw [hrw] at this
    exact this

/-- Witness for C4 (Scenario B of the spec): the single-vertex graph `aa`
with no edges, history `{aa}`, start `aa`, and an always-ineligible
predicate returns the empty set.  The graph here is the one built by the
Rust test `test_closest_commits_skip` (`bad` absent, one edgeless
vertex). -/
def gSkipSingle : CommitGraph := ⟨none, [[170]], fun _ => ⟨[], []⟩⟩

theorem claim4_witness :
    closest_commits 3 [170] gSkipSingle [[170]] (fun _ => .ok false) = .ok [] :=
  claim4_skip_filtering.2 gSkipSingle [170] [[170]] (fun _ => .ok false) 3
    (by decide) (by decide) (by decide) (by decide)

/-! ### Claim C9 -/

/-- The self-parent graph built from the log line `"AA AA"`: its single
vertex is its own parent and child. -/
def gSelfLoop : CommitGraph := graphOfDag [([170], [[170]])]

/-- Counterexample to C9: the claim bounds the loop by `|vertices|` rounds,
with every round either returning or strictly enlarging the visited set.
On the graph of the log line `"AA AA"` (one vertex that is its own parent)
with start at that vertex and no targets, the loop needs three rounds — the
second round neither returns nor enlarges the visited set — so with fuel
`|vertices| = 1`, and even with fuel `|vertices| + 1 = 2`, the search is
still running; it returns the empty set at fuel 3. -/
theorem claim9_counterexample :
    gSelfLoop.verts.length = 1 ∧
      closest_commits 1 [170] gSelfLoop [] (fun _ => .ok true) = .outOfFuel ∧
      closest_commits 2 [170] gSelfLoop [] (fun _ => .ok true) = .outOfFuel ∧
      closest_commits 3 [170] gSelfLoop [] (fun _ => .ok true) = .ok [] := by
  refine ⟨rfl, by decide, by decide, by decide⟩

/-- Claim C9, amended: under the precondition that the start identifier is
a vertex of a closed finite graph, the BFS loop of `closest_commits`
terminates for every target set and total predicate within
`2·|vertices| + 1` rounds (each round that does not return either enlarges
the visited set or, when the frontier was entirely visited already — which
a self-parent vertex makes possible — is immediately followed by the
returning round); moreover no neighbor lookup panics. -/
theorem claim9_amended (g : CommitGraph) (start : Oid) (targets : List Oid)
    (filter : Oid → Except String Bool) (fuel : Nat)
    (hclosed : GraphClosed g) (hstart : start ∈ g.verts)
    (hfuel : 2 * g.verts.toFinset.card + 1 ≤ fuel) :
    closest_commits fuel start g targets filter ≠ .outOfFuel ∧
      closest_commits fuel start g targets filter ≠ .missingVertex := by
  have hmu : loopMu g [start] [] ≤ fuel - 1 := by
    have hcard : (g.verts.toFinset \ ([] : List Oid).toFinset).card =
        g.verts.toFinset.card := by
      simp
    have hflag : (if ∀ x ∈ [start], x ∉ ([] : List Oid) then 0 else 1) = 0 := by
      simp
    rw [loopMu, hcard, hflag]
    omega
  have := loop_term g (match g.bad with
      | some bad => eraseS targets bad
      | none => targets) filter hclosed (fuel - 1) [start] []
    (by intro c hc; rw [List.mem_singleton] at hc; exact hc ▸ hstart) hmu
  have hrw : fuel - 1 + 1 = fuel := by omega
  rw [hrw] at this
  exact this

/-- Witness for C9: on the self-loop graph (one vertex), fuel
`2·|V| + 1 = 3` is enough: the search terminates with the empty set. -/
theorem claim9_witness :
    closest_commits 3 [170] gSelfLoop [] (fun _ => .ok true) ≠ .outOfFuel :=
  (claim9_amended gSelfLoop [170] [] (fun _ => .ok true) 3
    (by decide) (by decide) (by decide)).1

/-! ### Identifier parsing: hex facts and claim C2 -/

/-- Induction following the two-byte chunking of `Oid::parse`. -/
theorem twoStepInduction {P : List Nat → Prop} (h0 : P []) (h1 : ∀ a, P [a])
    (h2 : ∀ a b l, P l → P (a :: b :: l)) : ∀ l, P l
  | [] => h0
  | [a] => h1 a
  | a :: b :: rest => h2 a b rest (twoStepInduction h0 h1 h2 rest)

theorem hex_lt {b : Nat} (h : isHexDigit b = true) : b < 128 := by
  simp [isHexDigit] at h
  omega

theorem parsePair2_hex {a b : Nat} (ha : isHexDigit a = true) (hb : isHexDigit b = true) :
    parsePair2 a b = some (16 * hexVal a + hexVal b) := by
  unfold parsePair2
  rw [if_pos (by simp [hex_lt ha, hex_lt hb]), if_pos (by simp [ha, hb])]

/-- An even-length all-hex byte string parses to its full decoding. -/
theorem parse_even_hex : ∀ {l : List Nat}, l.length % 2 = 0 →
    (∀ b ∈ l, isHexDigit b = true) → Oid.parse l = .ok (decodeHex l) := by
  intro l
  induction l using twoStepInduction with
  | h0 => intro _ _; rfl
  | h1 a => intro hlen; simp at hlen
  | h2 a b rest ih =>
    intro hlen h
    have hlen2 : rest.length % 2 = 0 := by
      simp only [List.length_cons] at hlen
      omega
    have ha := h a (by simp)
    have hb := h b (by simp)
    have ihr := ih hlen2 fun x hx => h x (by simp [hx])
    rw [Oid.parse] at ihr
    simp only [Oid.parse, chunks2, mapExcept, chunkResult, parsePair2_hex ha hb, ihr, decodeHex]

/-- An odd-length all-hex byte string panics: all its full two-byte chunks
convert successfully, so evaluation reaches the lone final chunk, whose
eagerly-built error value indexes out of bounds. -/
theorem parse_odd_hex_panic : ∀ {l : List Nat}, l.length % 2 = 1 →
    (∀ b ∈ l, isHexDigit b = true) → Oid.parse l = .error .indexOut := by
  intro l
  induction l using twoStepInduction with
  | h0 => intro hlen; simp at hlen
  | h1 a => intro _ _; rfl
  | h2 a b rest ih =>
    intro hlen h
    have hlen2 : rest.length % 2 = 1 := by
      simp only [List.length_cons] at hlen
      omega
    have ha := h a (by simp)
    have hb := h b (by simp)
    have ihr := ih hlen2 fun x hx => h x (by simp [hx])
    rw [Oid.parse] at ihr
    simp only [Oid.parse, chunks2, mapExcept, chunkResult, parsePair2_hex ha hb, ihr]

theorem decodeHex_length : ∀ l : List Nat, (decodeHex l).length = l.length / 2 := by
  intro l
  induction l using twoStepInduction with
  | h0 => rfl
  | h1 a => simp [decodeHex]
  | h2 a b rest ih =>
    simp only [decodeHex, List.length_cons, ih]
    omega

/-- Even-length input never hits the out-of-bounds panic: there is no lone
final chunk. -/
theorem parse_even_no_panic : ∀ {l : List Nat}, l.length % 2 = 0 →
    Oid.parse l ≠ .error .indexOut := by
  intro l
  induction l using twoStepInduction with
  | h0 => intro _ h; cases h
  | h1 a => intro hlen; simp at hlen
  | h2 a b rest ih =>
    intro hlen h
    have hlen2 : rest.length % 2 = 0 := by
      simp only [List.length_cons] at hlen
      omega
    simp only [Oid.parse, chunks2, mapExcept] at h
    cases hp : parsePair2 a b with
    | none =>
      simp only [chunkResult, hp] at h
      cases h
    | some v =>
      simp only [chunkResult, hp] at h
      cases hrest : mapExcept chunkResult (chunks2 rest) with
      | error e =>
        simp only [hrest] at h
        injection h with he
        subst he
        exact ih hlen2 (by rw [Oid.parse]; exact hrest)
      | ok bs =>
        simp only [hrest] at h
        cases h

/-- Any `ParseError` returned by `Oid.parse` carries an actual offending
two-byte chunk of the input. -/
theorem parse_err_chunk : ∀ {l : List Nat} {a b : Nat},
    Oid.parse l = .error (.parseError a b) →
      [a, b] ∈ chunks2 l ∧ parsePair2 a b = none := by
  intro l
  induction l using twoStepInduction with
  | h0 => intro a b h; cases h
  | h1 x =>
    intro a b h
    simp only [Oid.parse, chunks2, mapExcept, chunkResult] at h
    cases h
  | h2 x y rest ih =>
    intro a b h
    simp only [Oid.parse, chunks2, mapExcept] at h
    cases hp : parsePair2 x y with
    | none =>
      simp only [chunkResult, hp] at h
      injection h with he
      injection he with hx hy
      subst hx; subst hy
      exact ⟨by simp [chunks2], hp⟩
    | some v =>
      simp only [chunkResult, hp] at h
      cases hrest : mapExcept chunkResult (chunks2 rest) with
      | error e =>
        simp only [hrest] at h
        injection h with he
        subst he
        have hr := ih (a := a) (b := b) (by rw [Oid.parse]; exact hrest)
        exact ⟨by simp [chunks2, hr.1], hr.2⟩
      | ok bs =>
        simp only [hrest] at h
        cases h

/-- Counterexample to C2: the claim says every odd-length input yields a
`ParseError` carrying the offending chunk — a parse failure, never a
panic.  In fact the lone hex digit `"F"` (odd length) makes `Oid::parse`
panic: `ok_or` builds `OidParseError([pair[0], pair[1]])` eagerly, and for
the one-byte final chunk `pair[1]` is out of bounds — even though the byte
is a perfectly valid hex digit. -/
theorem claim2_counterexample :
    ([70] : List Nat).length % 2 = 1 ∧ isHexDigit 70 = true ∧
      Oid.parse [70] = .error .indexOut :=
  ⟨rfl, rfl, by decide⟩

/-- Claim C2, amended: (i) every even-length input consisting solely of
ASCII hex digits decodes to the full value without truncation (exactly
`length/2` output bytes); (ii) on even-length input `Oid::parse` never
panics, so a failure there is a `ParseError`; (iii) every `ParseError`
returned carries an offending (invalid) two-character chunk of the input;
(iv) odd-length input, however, is not rejected with a `ParseError`: when
all its full two-byte chunks are valid (in particular on all-hex odd-length
input) evaluation reaches the lone final byte and panics on the
out-of-bounds index in the eagerly-evaluated error value. -/
theorem claim2_amended :
    (∀ l : List Nat, l.length % 2 = 0 → (∀ b ∈ l, isHexDigit b = true) →
        Oid.parse l = .ok (decodeHex l) ∧ (decodeHex l).length = l.length / 2) ∧
    (∀ l : List Nat, l.length % 2 = 0 → Oid.parse l ≠ .error .indexOut) ∧
    (∀ (l : List Nat) (a b : Nat), Oid.parse l = .error (.parseError a b) →
        [a, b] ∈ chunks2 l ∧ parsePair2 a b = none) ∧
    (∀ l : List Nat, l.length % 2 = 1 → (∀ b ∈ l, isHexDigit b = true) →
        Oid.parse l = .error .indexOut) :=
  ⟨fun l hlen h => ⟨parse_even_hex hlen h, decodeHex_length l⟩,
   fun _ h => parse_even_no_panic h,
   fun _ _ _ h => parse_err_chunk h,
   fun _ hlen h => parse_odd_hex_panic hlen h⟩

/-- Witness for the amended C2: the two-digit input `"0f"` decodes to the
byte `0x0f`, and the one-digit input `"F"` panics. -/
theorem claim2_witness :
    Oid.parse [48, 102] = .ok [15] ∧ Oid.parse [70] = .error .indexOut := by
  constructor
  · rw [(claim2_amended.1 [48, 102] rfl (by decide)).1]
    decide
  · exact claim2_amended.2.2.2 [70] rfl (by decide)

/-! ### Claim C3: graph well-formedness -/

theorem mem_vertsOfDag {dag : List (Oid × List Oid)} {v : Oid} :
    v ∈ vertsOfDag dag ↔ ∃ ps, (v, ps) ∈ dag := by
  rw [vertsOfDag, List.mem_dedup, List.mem_map]
  constructor
  · rintro ⟨⟨k, ps⟩, hmem, rfl⟩
    exact ⟨ps, hmem⟩
  · rintro ⟨ps, hmem⟩
    exact ⟨(v, ps), hmem, rfl⟩

/-- Claim C3: a graph built by `commit_graph` (with `dag` its parsed line
list) is well-formed: a vertex is exactly a first field of some line;
`c ∈ children(p)` (for a vertex `p`) holds iff `c` is a vertex whose line
declares `p` as a parent; `p ∈ parents(c)` (for a vertex `c`) holds iff `p`
is a vertex and `c`'s line declares it; and no non-vertex ever appears in a
`parents` or `children` set, so every lookup reached through them
succeeds. -/
theorem claim3_graph_symmetry (input : List Nat) (dag : List (Oid × List Oid))
    (g : CommitGraph) (hdag : dagOf input = .ok dag)
    (hg : commit_graph input = .ok g) :
    (∀ v, v ∈ g.verts ↔ ∃ ps, (v, ps) ∈ dag) ∧
    (∀ p, p ∈ g.verts → ∀ c,
        (c ∈ (g.commit p).children ↔ c ∈ g.verts ∧ p ∈ declaredParents dag c)) ∧
    (∀ c, c ∈ g.verts → ∀ p,
        (p ∈ (g.commit c).parents ↔ p ∈ g.verts ∧ p ∈ declaredParents dag c)) ∧
    (∀ v, v ∈ g.verts →
        (∀ x ∈ (g.commit v).parents, x ∈ g.verts) ∧
        (∀ x ∈ (g.commit v).children, x ∈ g.verts)) := by
  have hgd : g = graphOfDag dag := by
    rw [commit_graph, hdag] at hg
    injection hg with h
    exact h.symm
  subst hgd
  refine ⟨fun v => mem_vertsOfDag, ?_, ?_, ?_⟩
  · intro p _ c
    show c ∈ (vertsOfDag dag).filter _ ↔ _
    rw [List.mem_filter, decide_eq_true_iff]
    exact Iff.rfl
  · intro c _ p
    show p ∈ (declaredParents dag c).filter _ ↔ _
    rw [List.mem_filter, decide_eq_true_iff]
    exact ⟨fun h => ⟨h.2, h.1⟩, fun h => ⟨h.2, h.1⟩⟩
  · intro v _
    constructor
    · intro x hx
      exact decide_eq_true_iff.mp (List.mem_filter.mp hx).2
    · intro x hx
      exact (List.mem_filter.mp hx).1

/-- The example log of the Rust test `test_commit_graph`
(`"AA BB CC\nCC DD\n"`), its parsed dag, and the graph built from it. -/
def exBytes : List Nat := [65, 65, 32, 66, 66, 32, 67, 67, 10, 67, 67, 32, 68, 68, 10]

def exDag : List (Oid × List Oid) := [([170], [[187], [204]]), ([204], [[221]])]

def exGraph : CommitGraph := graphOfDag exDag

/-- Witness for C3 on the test log: `aa` is a child of `cc` and `cc` a
parent of `aa` (while the non-vertex parents `bb` and `dd` were pruned). -/
theorem claim3_witness :
    [170] ∈ (exGraph.commit [204]).children ∧ [204] ∈ (exGraph.commit [170]).parents := by
  have h := claim3_graph_symmetry exBytes exDag exGraph (by decide)
    (by rw [commit_graph, show dagOf exBytes = Except.ok exDag from by decide]; rfl)
  constructor
  · exact (h.2.1 [204] (by decide) [170]).mpr ⟨by decide, by decide⟩
  · exact (h.2.2.1 [170] (by decide) [204]).mpr ⟨by decide, by decide⟩

/-! ### Claim C6: the empty input line -/

/-- Claim C6 is refuted by evaluation (the code has a dead `"empty line"`
branch that documents the intended failure): an empty line splits into one
empty field, the empty field parses as the zero-length identifier, and so
the input consisting of one empty line builds a graph whose single vertex —
and bad marker — is the empty identifier, instead of failing. -/
theorem claim6_empty_line_eval :
    parse_line [] = .ok ([], []) ∧
      (commit_graph [10]).toOption.map (fun g => (g.bad, g.verts)) =
        some (some [], [[]]) :=
  ⟨by decide, by decide⟩

/-! ### Claim C7: the missing history file -/

/-- Claim C7: when the cache file is missing, `open_history_file` logs the
instruction to run `hydrascrape` (the population step) and fails with the
fixed error `"history file not available"` — it returns no file, attempting
no population — and this error differs from the wrapped message
`"opening history file: {e}"` produced for every other I/O error. -/
theorem claim7_missing_history_file (path e : List Nat) :
    (open_history_file (.ok path) fun _ => .notFound).result = .error msgNotAvailable ∧
    (open_history_file (.ok path) fun _ => .notFound).log = some msgRunHydrascrape ∧
    (open_history_file (.ok path) fun _ => .otherError e).result =
      .error (msgOpening ++ e) ∧
    msgOpening ++ e ≠ msgNotAvailable := by
  refine ⟨rfl, rfl, rfl, ?_⟩
  intro h
  have h2 := congrArg List.head? h
  simp [msgOpening, msgNotAvailable] at h2

/-- Witness for C7 at the empty path and empty I/O error text. -/
theorem claim7_witness :
    (open_history_file (.ok []) fun _ => .notFound).result = .error msgNotAvailable ∧
      msgOpening ++ [] ≠ msgNotAvailable :=
  ⟨(claim7_missing_history_file [] []).1, (claim7_missing_history_file [] []).2.2.2⟩

/-! ### Claim C8: last-record extraction -/

/-- Claim C8 is refuted by evaluation: on the four-byte file `"a\nb\n"` —
smaller than one chunk — the seek loop reads the whole file including the
final byte, so the trailing newline is treated as the last terminator
(despite the code's comment that it skips one byte to avoid exactly this)
and `last_line` returns the empty record, while the logical last record of
the file (the spec's naive scan) is `"b"`. -/
theorem claim8_last_line_eval :
    last_line [97, 10, 98, 10] = some [] ∧
      naive_last_record [97, 10, 98, 10] = [98] :=
  ⟨by decide, by decide⟩

/-! ### Claim C10: history lines always parse -/

theorem mem_foldl_sinsert {x : Oid} : ∀ {l acc : List Oid},
    x ∈ l.foldl (fun acc o => sinsert o acc) acc ↔ x ∈ acc ∨ x ∈ l := by
  intro l
  induction l with
  | nil => simp
  | cons o os ih =>
    intro acc
    rw [List.foldl_cons, ih, mem_sinsert]
    simp only [List.mem_cons]
    tauto

/-- Counterexample to C10: `parse_history_line` is not total.  On the line
`"abc"` the maximal leading hex run is the whole line, of odd length 3; its
full chunk `"ab"` converts fine, so evaluation reaches the lone final chunk
`"c"` and panics on the eagerly-built `OidParseError` index — before the
`unwrap` is ever reached — so `read_history` can fail on line content. -/
theorem claim10_counterexample :
    (List.takeWhile (fun b => isHexDigit b) [97, 98, 99]).length = 3 ∧
      parse_history_line [97, 98, 99] = .error .indexOut ∧
      read_history [97, 98, 99] = .error .indexOut :=
  ⟨rfl, by decide, by decide⟩

/-- Claim C10, amended: `parse_history_line` succeeds exactly on the lines
whose maximal leading run of ASCII hex digits has even length, decoding
that run; in particular a line with no leading hex digit — the empty line
included — yields the empty identifier, and on such lines the internal
`unwrap` is unreachable.  A line whose leading run has odd length instead
panics inside `Oid::parse` (at the eagerly-evaluated out-of-bounds error
index, before the `unwrap`), so `read_history` can fail on line content;
when every line's leading run has even length it succeeds, silently
inserting each decoded run — the empty identifier included — into the
history set. -/
theorem claim10_amended :
    (∀ line : List Nat, (line.takeWhile fun b => isHexDigit b).length % 2 = 0 →
        parse_history_line line =
          .ok (decodeHex (line.takeWhile fun b => isHexDigit b))) ∧
    parse_history_line [] = .ok [] ∧
    (∀ line : List Nat, (line.takeWhile fun b => isHexDigit b).length % 2 = 1 →
        parse_history_line line = .error .indexOut) ∧
    (∀ input : List Nat,
        (∀ l ∈ segments input, (l.takeWhile fun b => isHexDigit b).length % 2 = 0) →
        ∃ s, read_history input = .ok s ∧
          ∀ l ∈ segments input,
            decodeHex (l.takeWhile fun b => isHexDigit b) ∈ s) := by
  have hline : ∀ line : List Nat, (line.takeWhile fun b => isHexDigit b).length % 2 = 0 →
      parse_history_line line =
        .ok (decodeHex (line.takeWhile fun b => isHexDigit b)) := by
    intro line hlen
    rw [parse_history_line]
    exact parse_even_hex hlen fun b hb => List.mem_takeWhile_imp hb
  refine ⟨hline, by simpa using hline [] rfl, ?_, ?_⟩
  · intro line hlen
    rw [parse_history_line]
    exact parse_odd_hex_panic hlen fun b hb => List.mem_takeWhile_imp hb
  · intro input hall
    have hmap : ∀ ls : List (List Nat),
        (∀ l ∈ ls, (l.takeWhile fun b => isHexDigit b).length % 2 = 0) →
        mapExcept parse_history_line ls =
          .ok (ls.map fun l => decodeHex (l.takeWhile fun b => isHexDigit b)) := by
      intro ls
      induction ls with
      | nil => intro _; rfl
      | cons l ls ih =>
        intro h
        simp only [mapExcept, hline l (h l (List.mem_cons_self l ls)),
          ih fun x hx => h x (List.mem_cons_of_mem _ hx), List.map_cons]
    refine ⟨((segments input).map fun l =>
        decodeHex (l.takeWhile fun b => isHexDigit b)).foldl (fun acc o => sinsert o acc) [],
      ?_, ?_⟩
    · simp only [read_history, hmap (segments input) hall]
    · intro l hl
      rw [mem_foldl_sinsert]
      right
      rw [List.mem_map]
      exact ⟨l, hl, rfl⟩

/-- Witness for the amended C10: a line starting with the non-hex byte
`'g'` (leading run empty, hence of even length) parses to the empty
identifier. -/
theorem claim10_witness : parse_history_line [103] = .ok [] := by
  rw [claim10_amended.1 [103] rfl]
  decide

end Hydrasect
